import Mathlib

/-!
Verification of the discovery + link-reconciliation engine of
`scripts/claude-bridge.py` (classifier, scanner, reconciler, link
primitives, resolver) against its natural-language specification.

The Python code is shallowly embedded: directory listings become lists,
the per-entry facts the code queries (`is_dir()`, `exists()`,
`is_symlink()`) become fields of small structures, and the effectful sync
pass becomes explicit state passing over the two destination listings.
OS-level success/failure of individual link operations is abstracted into
an oracle (`LinkOracle`); the deterministic oracle `perfectOps` models runs
in which no individual link operation fails.
-/

namespace ClaudeBridge

/-- `PLUGIN_INDICATORS` from the script: entries whose presence directly
inside a directory marks it as a Claude Code plugin. -/
def PLUGIN_INDICATORS : List String :=
  ["plugin.json", "skills", "hooks", "agents", "commands", "README.md"]

/-- `EXCLUDE_NAMES` from the script: directory names never treated as
plugins. -/
def EXCLUDE_NAMES : List String :=
  [".git", ".github", ".claude", ".claude-plugin", "node_modules", "__pycache__",
   ".venv", "tests", "test", "docs", "doc", "src", "dist", "build"]

/-- A directory entry under a marketplace plugin base, as the scan sees it:
its base name, whether `is_dir()` holds, the names of the entries directly
inside it for which `(path / name).exists()` is true (queried by the
`is_plugin_dir` indicator check), and — when `<dir>/commands` exists and is
a directory — the raw scandir listing of that commands directory, in the
order `Path.glob` yields it (`none` when `commands` is absent or not a
directory). -/
structure PluginDir where
  name : String
  isDir : Bool
  entryNames : List String
  cmdListing : Option (List String)
deriving DecidableEq, Repr

/-- Lexicographic (code-point) order on character lists: the order Python
uses to compare strings. -/
def charLe : List Char → List Char → Bool
  | [], _ => true
  | _ :: _, [] => false
  | a :: as, b :: bs => if a = b then charLe as bs else decide (a < b)

/-- `a <= b` on strings, lexicographically by code point (Python's string
order). -/
def strLe (a b : String) : Bool := charLe a.toList b.toList

/-- Python's `s.startswith(pre)`: `pre` is a character prefix of `s`. -/
def strStartsWith (s pre : String) : Bool := pre.toList.isPrefixOf s.toList

/-- Python's `s.endswith(suf)`: `suf` is a character suffix of `s`. -/
def strEndsWith (s suf : String) : Bool := suf.toList.isSuffixOf s.toList

/-- `is_plugin_dir(path)`: rejects hidden names and the fixed exclusion
set, otherwise accepts iff at least one indicator entry exists directly
inside the directory. -/
def is_plugin_dir (path : PluginDir) : Bool :=
  if strStartsWith path.name "." || EXCLUDE_NAMES.contains path.name then false
  else PLUGIN_INDICATORS.any (fun indicator => path.entryNames.contains indicator)

/-- A marketplace entry (an immediate child of the marketplace root): its
name, whether `is_dir()` holds, the listing of `<entry>/plugins` when that
exists and is a directory (`plugin_base = mp_dir / "plugins"` in the
script), and the listing of the entry itself (used when `plugins` is
absent, `plugin_base = mp_dir`). -/
structure MarketEntry where
  name : String
  isDir : Bool
  pluginsSub : Option (List PluginDir)
  selfListing : List PluginDir
deriving DecidableEq, Repr

/-- The plugin base chosen by `cmd_sync`: `mp_dir / "plugins"` if that is a
directory, else `mp_dir` itself. -/
def pluginBaseListing (me : MarketEntry) : List PluginDir :=
  match me.pluginsSub with
  | some l => l
  | none => me.selfListing

/-- Python's `sorted` over the entries of one directory compares paths
lexicographically by name.  `sorted` is a stable sort, and insertion sort
is the canonical stable sort, so the two agree exactly. -/
def sortMarkets (l : List MarketEntry) : List MarketEntry :=
  l.insertionSort (fun a b => strLe a.name b.name = true)

/-- `sorted(plugin_base.iterdir())`, by name. -/
def sortPlugins (l : List PluginDir) : List PluginDir :=
  l.insertionSort (fun a b => strLe a.name b.name = true)

/-- `sorted` over a destination listing of plain names. -/
def sortStrings (l : List String) : List String :=
  l.insertionSort (fun a b => strLe a b = true)

/-- `commands_dir.glob("*.md")`: `pathlib` matches with `fnmatch`
semantics (no special-casing of leading dots), so the pattern `*.md`
selects exactly the names ending in `".md"`, kept in listing order —
`Path.glob` does not sort. -/
def globMd (listing : List String) : List String :=
  listing.filter (fun n => strEndsWith n ".md")

/-- The canonical bridge identifier `f"{mp_name}__{plugin_dir.name}"`. -/
def bridgeNameOf (mpName plugName : String) : String :=
  mpName ++ "__" ++ plugName

/-- The workflow identifier
`f"cb__{mp_name}__{plugin_dir.name}__{cmd_file.name}"`. -/
def wfNameOf (mpName plugName fileName : String) : String :=
  "cb__" ++ mpName ++ "__" ++ plugName ++ "__" ++ fileName

/-- The workflow identifiers emitted for one plugin directory: the `*.md`
files of its `commands` directory, in glob order. -/
def wfNamesOfPlugin (mpName : String) (pd : PluginDir) : List String :=
  match pd.cmdListing with
  | none => []
  | some listing => (globMd listing).map (fun f => wfNameOf mpName pd.name f)

/-- The candidate pair (plugin ids, workflow ids) contributed by a single
entry of the plugin base: empty unless the entry is a directory passing the
classifier. -/
def scanPlugin1 (mpName : String) (pd : PluginDir) : List String × List String :=
  if pd.isDir && is_plugin_dir pd then
    ([bridgeNameOf mpName pd.name], wfNamesOfPlugin mpName pd)
  else ([], [])

/-- Candidate sequences contributed by a (pre-sorted) plugin-base listing. -/
def scanPlugins (mpName : String) : List PluginDir → List String × List String
  | [] => ([], [])
  | pd :: rest =>
    let h := scanPlugin1 mpName pd
    let r := scanPlugins mpName rest
    (h.1 ++ r.1, h.2 ++ r.2)

/-- Candidate sequences contributed by a single marketplace entry: empty
when the entry is skipped (`not mp_dir.is_dir() or
mp_dir.name.startswith(".")`), otherwise the plugin-base listing is visited
in sorted order. -/
def scanMarket1 (me : MarketEntry) : List String × List String :=
  if me.isDir && !(strStartsWith me.name ".") then
    scanPlugins me.name (sortPlugins (pluginBaseListing me))
  else ([], [])

/-- Candidate sequences contributed by a (pre-sorted) marketplace listing. -/
def scanMarkets : List MarketEntry → List String × List String
  | [] => ([], [])
  | me :: rest =>
    let h := scanMarket1 me
    let r := scanMarkets rest
    (h.1 ++ r.1, h.2 ++ r.2)

/-- The scan underlying `cmd_sync`: the ordered sequences
`valid_plugin_names` and `valid_workflow_names` the loop accumulates,
visiting marketplace entries in sorted order. -/
def scanMarket (ms : List MarketEntry) : List String × List String :=
  scanMarkets (sortMarkets ms)

/-! ### Link primitive layer -/

/-- `create_link(source, dest, is_windows)`: the `try`-block runs the
platform's directory-link mechanism (`cmd /c mklink /J` via `subprocess.run`
with `check=True` on Windows, `os.symlink` otherwise); its outcome is
modelled as an `Except` value.  The function returns `True` on success; any
raised exception is caught and turned into `False`. -/
def create_link (attempt : Except String Unit) : Bool :=
  match attempt with
  | .ok _ => true
  | .error _ => false

/-- `create_file_link(source, dest, is_windows)`: same catch-all shape as
`create_link`, with the file-link mechanism (`mklink /H` hard link on
Windows, `os.symlink` otherwise) as the `try`-block. -/
def create_file_link (attempt : Except String Unit) : Bool :=
  match attempt with
  | .ok _ => true
  | .error _ => false

/-- What a destination entry handed to `remove_link` can be.  `realDir`
carries the names of its contents (a directory link or junction does not:
removing it never touches the target's contents). -/
inductive EntryKind where
  | symlinkToDir
  | symlinkToFile
  | symlinkDangling
  | junction
  | file
  | realDir (contents : List String)
deriving DecidableEq, Repr

/-- `Path.is_symlink()`: true for every symbolic link, including a dangling
one; false for a Windows junction. -/
def EntryKind.is_symlink : EntryKind → Bool
  | symlinkToDir => true
  | symlinkToFile => true
  | symlinkDangling => true
  | _ => false

/-- `Path.is_dir()` (follows links): true for a real directory, a junction,
and a symlink resolving to a directory. -/
def EntryKind.is_dir : EntryKind → Bool
  | symlinkToDir => true
  | junction => true
  | realDir _ => true
  | _ => false

/-- `Path.is_file()` (follows links): true for a plain file and a symlink
resolving to a file. -/
def EntryKind.is_file : EntryKind → Bool
  | symlinkToFile => true
  | file => true
  | _ => false

/-- `remove_link(path, is_windows)`.  Returns `(success, entry afterwards)`
where `none` means the entry is gone.  On Windows: `os.rmdir` when
`is_dir()` (removes a junction or directory symlink as a link, and an empty
real directory; raises on a non-empty real directory — caught, so the
function returns `False` with the directory intact), else `os.remove`.  On
Unix: `path.unlink()` when `is_symlink() or is_file()`, else `os.rmdir`
with the same non-empty-directory failure. -/
def remove_link (kind : EntryKind) (is_windows : Bool) : Bool × Option EntryKind :=
  if is_windows then
    if kind.is_dir then
      match kind with
      | .realDir contents =>
        if contents.isEmpty then (true, none) else (false, some (.realDir contents))
      | _ => (true, none)
    else (true, none)
  else
    if kind.is_symlink || kind.is_file then (true, none)
    else
      match kind with
      | .realDir contents =>
        if contents.isEmpty then (true, none) else (false, some (.realDir contents))
      | _ => (true, none)

/-! ### Plugin resolver -/

/-- Substring test over character lists (`query in p.name` in Python). -/
def charsContain (sub : List Char) : List Char → Bool
  | [] => sub.isEmpty
  | c :: rest => sub.isPrefixOf (c :: rest) || charsContain sub rest

/-- `sub in container` for strings: `sub` occurs contiguously in
`container`. -/
def strContainsSub (container sub : String) : Bool :=
  charsContain sub.toList container.toList

/-- An entry of the bridge-plugins destination as `resolve_plugin` sees it:
its name and whether `Path.exists()` holds for it — false exactly when the
entry is a dangling symbolic link (`exists()` resolves links). -/
structure DirEntry where
  name : String
  resolvedExists : Bool
deriving DecidableEq, Repr

/-- Outcome of `resolve_plugin`: a resolved entry, an ambiguous failure
listing every candidate name (`sys.exit(1)` after printing them), or a
not-found failure. -/
inductive ResolveResult where
  | found (name : String)
  | ambiguous (candidates : List String)
  | notFound
deriving DecidableEq, Repr

/-- The substring candidates
`[p for p in bridge_plugins.iterdir() if name in p.name]`, as names.
`iterdir` lists dangling symlinks too. -/
def matchNames (entries : List DirEntry) (query : String) : List String :=
  (entries.filter (fun e => strContainsSub e.name query)).map (fun e => e.name)

/-- The substring-search step of `resolve_plugin`: one candidate → that
entry, zero → not found, several → ambiguous with the full candidate
list. -/
def substringResolve (entries : List DirEntry) (query : String) : ResolveResult :=
  match matchNames entries query with
  | [c] => .found c
  | [] => .notFound
  | cs => .ambiguous cs

/-- `resolve_plugin(bridge_plugins, name)`: the exact path wins immediately
when `exact.exists()` — resolved existence, so a dangling link at the exact
path does not count; otherwise the substring search decides. -/
def resolve_plugin (entries : List DirEntry) (query : String) : ResolveResult :=
  if entries.any (fun e => e.name == query && e.resolvedExists) then
    .found query
  else
    substringResolve entries query

/-! ### The sync pass (`cmd_sync`) -/

/-- Success/failure oracle for the individual link operations attempted
during one sync run, abstracting OS-level outcomes by target name. -/
structure LinkOracle where
  createDir : String → Bool
  createFile : String → Bool
  remove : String → Bool

/-- The oracle of a run in which no individual link operation fails. -/
def perfectOps : LinkOracle :=
  { createDir := fun _ => true, createFile := fun _ => true, remove := fun _ => true }

/-- Running state of the creation phase of `cmd_sync`: the accumulated
`valid_plugin_names` and `valid_workflow_names`, the four counters, and the
current name listings of the two destination directories. -/
structure SyncAcc where
  validP : List String
  validW : List String
  pLinked : Nat
  pSkipped : Nat
  wLinked : Nat
  wSkipped : Nat
  pDest : List String
  wDest : List String
deriving DecidableEq, Repr

/-- One workflow candidate: append to `valid_workflow_names`; skip when an
entry of that name is already present (`wf_dest.exists() or
wf_dest.is_symlink()` is exactly "listed in the destination" — a dangling
link fails `exists` but passes `is_symlink`); otherwise attempt
`create_file_link`, which on success adds the entry. -/
def stepWf (o : LinkOracle) (wf : String) (a : SyncAcc) : SyncAcc :=
  if a.wDest.contains wf then
    { a with validW := a.validW ++ [wf], wSkipped := a.wSkipped + 1 }
  else if o.createFile wf then
    { a with validW := a.validW ++ [wf], wLinked := a.wLinked + 1,
             wDest := a.wDest ++ [wf] }
  else
    { a with validW := a.validW ++ [wf] }

/-- The workflow loop over one plugin's command files. -/
def stepWfs (o : LinkOracle) : List String → SyncAcc → SyncAcc
  | [], a => a
  | wf :: rest, a => stepWfs o rest (stepWf o wf a)

/-- The plugin-link part of one plugin-base entry: append the bridge name
to `valid_plugin_names`, then skip (already present), create, or log the
create failure. -/
def stepPluginLink (o : LinkOracle) (bn : String) (a : SyncAcc) : SyncAcc :=
  if a.pDest.contains bn then
    { a with validP := a.validP ++ [bn], pSkipped := a.pSkipped + 1 }
  else if o.createDir bn then
    { a with validP := a.validP ++ [bn], pLinked := a.pLinked + 1,
             pDest := a.pDest ++ [bn] }
  else
    { a with validP := a.validP ++ [bn] }

/-- One plugin-base entry: skipped unless it is a directory passing
`is_plugin_dir`; otherwise the plugin link is handled and then the plugin's
workflow candidates are processed. -/
def stepPlugin (o : LinkOracle) (mpName : String) (pd : PluginDir) (a : SyncAcc) : SyncAcc :=
  if pd.isDir && is_plugin_dir pd then
    stepWfs o (wfNamesOfPlugin mpName pd)
      (stepPluginLink o (bridgeNameOf mpName pd.name) a)
  else a

/-- The plugin loop over one marketplace's (sorted) plugin base. -/
def stepPlugins (o : LinkOracle) (mpName : String) : List PluginDir → SyncAcc → SyncAcc
  | [], a => a
  | pd :: rest, a => stepPlugins o mpName rest (stepPlugin o mpName pd a)

/-- One marketplace entry: skipped when not a directory or hidden. -/
def stepMarket (o : LinkOracle) (me : MarketEntry) (a : SyncAcc) : SyncAcc :=
  if me.isDir && !(strStartsWith me.name ".") then
    stepPlugins o me.name (sortPlugins (pluginBaseListing me)) a
  else a

/-- The marketplace loop. -/
def stepMarkets (o : LinkOracle) : List MarketEntry → SyncAcc → SyncAcc
  | [], a => a
  | me :: rest, a => stepMarkets o rest (stepMarket o me a)

/-- Initial creation-phase state over the two destination listings. -/
def initAcc (pD wD : List String) : SyncAcc :=
  { validP := [], validW := [], pLinked := 0, pSkipped := 0,
    wLinked := 0, wSkipped := 0, pDest := pD, wDest := wD }

/-- The whole creation phase of `cmd_sync`: the marketplace listing is
visited in sorted order. -/
def creationPass (o : LinkOracle) (ms : List MarketEntry) (pD wD : List String) : SyncAcc :=
  stepMarkets o (sortMarkets ms) (initAcc pD wD)

/-- The obsolete-plugin cleanup loop: every destination entry whose name is
not in `valid_plugin_names` gets a removal attempt; a failed removal leaves
the entry in place.  Returns (removed count, surviving listing). -/
def cleanupPlugins (o : LinkOracle) (valid : List String) : List String → Nat × List String
  | [] => (0, [])
  | n :: rest =>
    let r := cleanupPlugins o valid rest
    if valid.contains n then (r.1, n :: r.2)
    else if o.remove n then (r.1 + 1, r.2)
    else (r.1, n :: r.2)

/-- The obsolete-workflow cleanup loop: only entries whose name starts with
`"cb__"` and is not in `valid_workflow_names` get a removal attempt. -/
def cleanupWorkflows (o : LinkOracle) (valid : List String) : List String → Nat × List String
  | [] => (0, [])
  | n :: rest =>
    let r := cleanupWorkflows o valid rest
    if strStartsWith n "cb__" && !(valid.contains n) then
      if o.remove n then (r.1 + 1, r.2) else (r.1, n :: r.2)
    else (r.1, n :: r.2)

/-- The filesystem state `cmd_sync` mutates: the name listings of the two
destination directories, `none` when the directory does not exist yet. -/
structure FS where
  plugDest : Option (List String)
  wfDest : Option (List String)
deriving DecidableEq, Repr

/-- The counters `cmd_sync` reports: bridged (candidate count), newly
linked, already existing, removed — for plugins and workflows. -/
structure SyncCounts where
  pBridged : Nat
  pLinked : Nat
  pSkipped : Nat
  pRemoved : Nat
  wBridged : Nat
  wLinked : Nat
  wSkipped : Nat
  wRemoved : Nat
deriving DecidableEq, Repr

/-- `cmd_sync`: when the marketplace root does not exist (`market = none`)
the command prints a notice and returns before touching anything.
Otherwise both destination directories are created if absent
(`mkdir(parents=True, exist_ok=True)`), the creation pass runs, and the two
cleanup loops walk `sorted(...)` snapshots of the destination listings. -/
def cmd_sync (o : LinkOracle) (market : Option (List MarketEntry)) (fs : FS) :
    Option SyncCounts × FS :=
  match market with
  | none => (none, fs)
  | some ms =>
    let pD := fs.plugDest.getD []
    let wD := fs.wfDest.getD []
    let a := creationPass o ms pD wD
    let pc := cleanupPlugins o a.validP (sortStrings a.pDest)
    let wc := cleanupWorkflows o a.validW (sortStrings a.wDest)
    (some { pBridged := a.validP.length, pLinked := a.pLinked,
            pSkipped := a.pSkipped, pRemoved := pc.1,
            wBridged := a.validW.length, wLinked := a.wLinked,
            wSkipped := a.wSkipped, wRemoved := wc.1 },
     { plugDest := some pc.2, wfDest := some wc.2 })


/-- The name listing of the bridge-plugins destination (empty when the
directory does not exist). -/
def FS.plugNames (fs : FS) : List String := fs.plugDest.getD []

/-- The name listing of the workflows destination. -/
def FS.wfNames (fs : FS) : List String := fs.wfDest.getD []

/-- `k` successive runs of `cmd_sync` against the same marketplace. -/
def syncIter (o : LinkOracle) (ms : List MarketEntry) : Nat → FS → FS
  | 0, fs => fs
  | k + 1, fs => syncIter o ms k (cmd_sync o (some ms) fs).2

/-! ### Lemmas about the embedded definitions -/

theorem contains_iff (l : List String) (n : String) : l.contains n = true ↔ n ∈ l := by
  simp [List.contains, List.elem_iff]

theorem stepWf_validP (o : LinkOracle) (wf : String) (a : SyncAcc) :
    (stepWf o wf a).validP = a.validP := by
  unfold stepWf; split_ifs <;> rfl

theorem stepWf_validW (o : LinkOracle) (wf : String) (a : SyncAcc) :
    (stepWf o wf a).validW = a.validW ++ [wf] := by
  unfold stepWf; split_ifs <;> rfl

theorem stepWf_pDest (o : LinkOracle) (wf : String) (a : SyncAcc) :
    (stepWf o wf a).pDest = a.pDest := by
  unfold stepWf; split_ifs <;> rfl

theorem stepWf_wDest_mono (o : LinkOracle) (wf : String) (a : SyncAcc) (n : String)
    (h : n ∈ a.wDest) : n ∈ (stepWf o wf a).wDest := by
  unfold stepWf; split_ifs <;> first | exact h | exact List.mem_append_left _ h

theorem stepWf_wDest_self (wf : String) (a : SyncAcc) :
    wf ∈ (stepWf perfectOps wf a).wDest := by
  unfold stepWf
  split_ifs with h1 h2
  · exact (contains_iff _ _).mp h1
  · exact List.mem_append_right _ (List.mem_singleton.mpr rfl)
  · exact absurd rfl h2

theorem stepWf_noop (o : LinkOracle) (wf : String) (a : SyncAcc) (h : wf ∈ a.wDest) :
    stepWf o wf a = { a with validW := a.validW ++ [wf], wSkipped := a.wSkipped + 1 } := by
  unfold stepWf
  rw [if_pos ((contains_iff _ _).mpr h)]


theorem stepWfs_validP (o : LinkOracle) (l : List String) (a : SyncAcc) :
    (stepWfs o l a).validP = a.validP := by
  induction l generalizing a with
  | nil => rfl
  | cons wf rest ih => rw [stepWfs, ih, stepWf_validP]

theorem stepWfs_validW (o : LinkOracle) (l : List String) (a : SyncAcc) :
    (stepWfs o l a).validW = a.validW ++ l := by
  induction l generalizing a with
  | nil => simp [stepWfs]
  | cons wf rest ih => rw [stepWfs, ih, stepWf_validW, List.append_assoc]; rfl

theorem stepWfs_pDest (o : LinkOracle) (l : List String) (a : SyncAcc) :
    (stepWfs o l a).pDest = a.pDest := by
  induction l generalizing a with
  | nil => rfl
  | cons wf rest ih => rw [stepWfs, ih, stepWf_pDest]

theorem stepWfs_wDest_mono (o : LinkOracle) (l : List String) (a : SyncAcc) (n : String)
    (h : n ∈ a.wDest) : n ∈ (stepWfs o l a).wDest := by
  induction l generalizing a with
  | nil => exact h
  | cons wf rest ih => exact ih _ (stepWf_wDest_mono o wf a n h)

theorem stepWfs_wDest_incl (l : List String) (a : SyncAcc) (n : String) :
    n ∈ l → n ∈ (stepWfs perfectOps l a).wDest := by
  induction l generalizing a with
  | nil => intro h; cases h
  | cons wf rest ih =>
    intro h
    rcases List.mem_cons.mp h with h1 | h2
    · subst h1
      show n ∈ (stepWfs perfectOps rest (stepWf perfectOps n a)).wDest
      exact stepWfs_wDest_mono _ _ _ _ (stepWf_wDest_self n a)
    · exact ih _ h2

theorem stepWfs_noop (o : LinkOracle) (l : List String) (a : SyncAcc)
    (h : ∀ wf ∈ l, wf ∈ a.wDest) :
    stepWfs o l a = { a with validW := a.validW ++ l, wSkipped := a.wSkipped + l.length } := by
  induction l generalizing a with
  | nil => simp [stepWfs]
  | cons wf rest ih =>
    rw [stepWfs, stepWf_noop o wf a (h wf (List.mem_cons_self wf rest))]
    rw [ih]
    · simp [List.append_assoc]
      omega
    · intro x hx
      exact h x (List.mem_cons_of_mem wf hx)

theorem stepPluginLink_validP (o : LinkOracle) (bn : String) (a : SyncAcc) :
    (stepPluginLink o bn a).validP = a.validP ++ [bn] := by
  unfold stepPluginLink; split_ifs <;> rfl

theorem stepPluginLink_validW (o : LinkOracle) (bn : String) (a : SyncAcc) :
    (stepPluginLink o bn a).validW = a.validW := by
  unfold stepPluginLink; split_ifs <;> rfl

theorem stepPluginLink_wDest (o : LinkOracle) (bn : String) (a : SyncAcc) :
    (stepPluginLink o bn a).wDest = a.wDest := by
  unfold stepPluginLink; split_ifs <;> rfl

theorem stepPluginLink_pDest_mono (o : LinkOracle) (bn : String) (a : SyncAcc) (n : String)
    (h : n ∈ a.pDest) : n ∈ (stepPluginLink o bn a).pDest := by
  unfold stepPluginLink; split_ifs <;> first | exact h | exact List.mem_append_left _ h

theorem stepPluginLink_pDest_self (bn : String) (a : SyncAcc) :
    bn ∈ (stepPluginLink perfectOps bn a).pDest := by
  unfold stepPluginLink
  split_ifs with h1 h2
  · exact (contains_iff _ _).mp h1
  · exact List.mem_append_right _ (List.mem_singleton.mpr rfl)
  · exact absurd rfl h2

theorem stepPluginLink_noop (o : LinkOracle) (bn : String) (a : SyncAcc) (h : bn ∈ a.pDest) :
    stepPluginLink o bn a
      = { a with validP := a.validP ++ [bn], pSkipped := a.pSkipped + 1 } := by
  unfold stepPluginLink
  rw [if_pos ((contains_iff _ _).mpr h)]

theorem stepPlugin_validP (o : LinkOracle) (mpName : String) (pd : PluginDir) (a : SyncAcc) :
    (stepPlugin o mpName pd a).validP = a.validP ++ (scanPlugin1 mpName pd).1 := by
  unfold stepPlugin scanPlugin1
  split_ifs
  · rw [stepWfs_validP, stepPluginLink_validP]
  · simp

theorem stepPlugin_validW (o : LinkOracle) (mpName : String) (pd : PluginDir) (a : SyncAcc) :
    (stepPlugin o mpName pd a).validW = a.validW ++ (scanPlugin1 mpName pd).2 := by
  unfold stepPlugin scanPlugin1
  split_ifs
  · rw [stepWfs_validW, stepPluginLink_validW]
  · simp

theorem stepPlugin_pDest_mono (o : LinkOracle) (mpName : String) (pd : PluginDir) (a : SyncAcc)
    (n : String) (h : n ∈ a.pDest) : n ∈ (stepPlugin o mpName pd a).pDest := by
  unfold stepPlugin
  split_ifs
  · rw [stepWfs_pDest]; exact stepPluginLink_pDest_mono o _ a n h
  · exact h

theorem stepPlugin_wDest_mono (o : LinkOracle) (mpName : String) (pd : PluginDir) (a : SyncAcc)
    (n : String) (h : n ∈ a.wDest) : n ∈ (stepPlugin o mpName pd a).wDest := by
  unfold stepPlugin
  split_ifs
  · exact stepWfs_wDest_mono o _ _ n (by rw [stepPluginLink_wDest]; exact h)
  · exact h

theorem stepPlugin_pDest_incl (mpName : String) (pd : PluginDir) (a : SyncAcc) (n : String)
    (h : n ∈ (scanPlugin1 mpName pd).1) : n ∈ (stepPlugin perfectOps mpName pd a).pDest := by
  unfold stepPlugin
  unfold scanPlugin1 at h
  split_ifs with hq
  · rw [if_pos hq] at h
    rcases List.mem_singleton.mp h with rfl
    rw [stepWfs_pDest]
    exact stepPluginLink_pDest_self _ a
  · rw [if_neg hq] at h; cases h

theorem stepPlugin_wDest_incl (mpName : String) (pd : PluginDir) (a : SyncAcc) (n : String)
    (h : n ∈ (scanPlugin1 mpName pd).2) : n ∈ (stepPlugin perfectOps mpName pd a).wDest := by
  unfold stepPlugin
  unfold scanPlugin1 at h
  split_ifs with hq
  · rw [if_pos hq] at h
    exact stepWfs_wDest_incl _ _ _ h
  · rw [if_neg hq] at h; cases h

theorem stepPlugin_noop (o : LinkOracle) (mpName : String) (pd : PluginDir) (a : SyncAcc)
    (hp : ∀ n ∈ (scanPlugin1 mpName pd).1, n ∈ a.pDest)
    (hw : ∀ n ∈ (scanPlugin1 mpName pd).2, n ∈ a.wDest) :
    stepPlugin o mpName pd a
      = { a with validP := a.validP ++ (scanPlugin1 mpName pd).1,
                 pSkipped := a.pSkipped + (scanPlugin1 mpName pd).1.length,
                 validW := a.validW ++ (scanPlugin1 mpName pd).2,
                 wSkipped := a.wSkipped + (scanPlugin1 mpName pd).2.length } := by
  unfold stepPlugin
  unfold scanPlugin1 at hp hw ⊢
  split_ifs with hq
  · rw [if_pos hq] at hp hw
    have hbn : bridgeNameOf mpName pd.name ∈ a.pDest :=
      hp _ (List.mem_singleton.mpr rfl)
    rw [stepPluginLink_noop o _ a hbn, stepWfs_noop o _ _ (by intro x hx; exact hw x hx)]
    simp
  · simp

theorem stepPlugins_validP (o : LinkOracle) (mpName : String) (l : List PluginDir) (a : SyncAcc) :
    (stepPlugins o mpName l a).validP = a.validP ++ (scanPlugins mpName l).1 := by
  induction l generalizing a with
  | nil => simp [stepPlugins, scanPlugins]
  | cons pd rest ih =>
    rw [stepPlugins, ih, stepPlugin_validP, scanPlugins, List.append_assoc]

theorem stepPlugins_validW (o : LinkOracle) (mpName : String) (l : List PluginDir) (a : SyncAcc) :
    (stepPlugins o mpName l a).validW = a.validW ++ (scanPlugins mpName l).2 := by
  induction l generalizing a with
  | nil => simp [stepPlugins, scanPlugins]
  | cons pd rest ih =>
    rw [stepPlugins, ih, stepPlugin_validW, scanPlugins, List.append_assoc]

theorem stepPlugins_pDest_mono (o : LinkOracle) (mpName : String) (l : List PluginDir)
    (a : SyncAcc) (n : String) (h : n ∈ a.pDest) : n ∈ (stepPlugins o mpName l a).pDest := by
  induction l generalizing a with
  | nil => exact h
  | cons pd rest ih => exact ih _ (stepPlugin_pDest_mono o mpName pd a n h)

theorem stepPlugins_wDest_mono (o : LinkOracle) (mpName : String) (l : List PluginDir)
    (a : SyncAcc) (n : String) (h : n ∈ a.wDest) : n ∈ (stepPlugins o mpName l a).wDest := by
  induction l generalizing a with
  | nil => exact h
  | cons pd rest ih => exact ih _ (stepPlugin_wDest_mono o mpName pd a n h)

theorem stepPlugins_pDest_incl (mpName : String) (l : List PluginDir) (a : SyncAcc) (n : String) :
    n ∈ (scanPlugins mpName l).1 → n ∈ (stepPlugins perfectOps mpName l a).pDest := by
  induction l generalizing a with
  | nil => intro h; cases h
  | cons pd rest ih =>
    intro h
    rw [scanPlugins] at h
    rcases List.mem_append.mp h with h1 | h2
    · show n ∈ (stepPlugins perfectOps mpName rest (stepPlugin perfectOps mpName pd a)).pDest
      exact stepPlugins_pDest_mono _ _ _ _ _ (stepPlugin_pDest_incl mpName pd a n h1)
    · exact ih _ h2

theorem stepPlugins_wDest_incl (mpName : String) (l : List PluginDir) (a : SyncAcc) (n : String) :
    n ∈ (scanPlugins mpName l).2 → n ∈ (stepPlugins perfectOps mpName l a).wDest := by
  induction l generalizing a with
  | nil => intro h; cases h
  | cons pd rest ih =>
    intro h
    rw [scanPlugins] at h
    rcases List.mem_append.mp h with h1 | h2
    · show n ∈ (stepPlugins perfectOps mpName rest (stepPlugin perfectOps mpName pd a)).wDest
      exact stepPlugins_wDest_mono _ _ _ _ _ (stepPlugin_wDest_incl mpName pd a n h1)
    · exact ih _ h2

theorem stepPlugins_noop (o : LinkOracle) (mpName : String) (l : List PluginDir) (a : SyncAcc)
    (hp : ∀ n ∈ (scanPlugins mpName l).1, n ∈ a.pDest)
    (hw : ∀ n ∈ (scanPlugins mpName l).2, n ∈ a.wDest) :
    stepPlugins o mpName l a
      = { a with validP := a.validP ++ (scanPlugins mpName l).1,
                 pSkipped := a.pSkipped + (scanPlugins mpName l).1.length,
                 validW := a.validW ++ (scanPlugins mpName l).2,
                 wSkipped := a.wSkipped + (scanPlugins mpName l).2.length } := by
  induction l generalizing a with
  | nil => simp [stepPlugins, scanPlugins]
  | cons pd rest ih =>
    rw [scanPlugins] at hp hw ⊢
    rw [stepPlugins, stepPlugin_noop o mpName pd a
        (fun n hn => hp n (List.mem_append_left _ hn))
        (fun n hn => hw n (List.mem_append_left _ hn))]
    rw [ih]
    · simp [List.append_assoc]
      omega
    · intro n hn
      exact hp n (List.mem_append_right _ hn)
    · intro n hn
      exact hw n (List.mem_append_right _ hn)

theorem stepMarket_validP (o : LinkOracle) (me : MarketEntry) (a : SyncAcc) :
    (stepMarket o me a).validP = a.validP ++ (scanMarket1 me).1 := by
  unfold stepMarket scanMarket1
  split_ifs
  · rw [stepPlugins_validP]
  · simp

theorem stepMarket_validW (o : LinkOracle) (me : MarketEntry) (a : SyncAcc) :
    (stepMarket o me a).validW = a.validW ++ (scanMarket1 me).2 := by
  unfold stepMarket scanMarket1
  split_ifs
  · rw [stepPlugins_validW]
  · simp

theorem stepMarket_pDest_mono (o : LinkOracle) (me : MarketEntry) (a : SyncAcc) (n : String)
    (h : n ∈ a.pDest) : n ∈ (stepMarket o me a).pDest := by
  unfold stepMarket
  split_ifs
  · exact stepPlugins_pDest_mono o _ _ a n h
  · exact h

theorem stepMarket_wDest_mono (o : LinkOracle) (me : MarketEntry) (a : SyncAcc) (n : String)
    (h : n ∈ a.wDest) : n ∈ (stepMarket o me a).wDest := by
  unfold stepMarket
  split_ifs
  · exact stepPlugins_wDest_mono o _ _ a n h
  · exact h

theorem stepMarket_pDest_incl (me : MarketEntry) (a : SyncAcc) (n : String)
    (h : n ∈ (scanMarket1 me).1) : n ∈ (stepMarket perfectOps me a).pDest := by
  unfold stepMarket
  unfold scanMarket1 at h
  split_ifs with hq
  · rw [if_pos hq] at h
    exact stepPlugins_pDest_incl _ _ a n h
  · rw [if_neg hq] at h; cases h

theorem stepMarket_wDest_incl (me : MarketEntry) (a : SyncAcc) (n : String)
    (h : n ∈ (scanMarket1 me).2) : n ∈ (stepMarket perfectOps me a).wDest := by
  unfold stepMarket
  unfold scanMarket1 at h
  split_ifs with hq
  · rw [if_pos hq] at h
    exact stepPlugins_wDest_incl _ _ a n h
  · rw [if_neg hq] at h; cases h

theorem stepMarket_noop (o : LinkOracle) (me : MarketEntry) (a : SyncAcc)
    (hp : ∀ n ∈ (scanMarket1 me).1, n ∈ a.pDest)
    (hw : ∀ n ∈ (scanMarket1 me).2, n ∈ a.wDest) :
    stepMarket o me a
      = { a with validP := a.validP ++ (scanMarket1 me).1,
                 pSkipped := a.pSkipped + (scanMarket1 me).1.length,
                 validW := a.validW ++ (scanMarket1 me).2,
                 wSkipped := a.wSkipped + (scanMarket1 me).2.length } := by
  unfold stepMarket
  unfold scanMarket1 at hp hw ⊢
  split_ifs with hq
  · rw [if_pos hq] at hp hw
    exact stepPlugins_noop o _ _ a hp hw
  · simp

theorem stepMarkets_validP (o : LinkOracle) (l : List MarketEntry) (a : SyncAcc) :
    (stepMarkets o l a).validP = a.validP ++ (scanMarkets l).1 := by
  induction l generalizing a with
  | nil => simp [stepMarkets, scanMarkets]
  | cons me rest ih =>
    rw [stepMarkets, ih, stepMarket_validP, scanMarkets, List.append_assoc]

theorem stepMarkets_validW (o : LinkOracle) (l : List MarketEntry) (a : SyncAcc) :
    (stepMarkets o l a).validW = a.validW ++ (scanMarkets l).2 := by
  induction l generalizing a with
  | nil => simp [stepMarkets, scanMarkets]
  | cons me rest ih =>
    rw [stepMarkets, ih, stepMarket_validW, scanMarkets, List.append_assoc]

theorem stepMarkets_pDest_mono (o : LinkOracle) (l : List MarketEntry) (a : SyncAcc) (n : String)
    (h : n ∈ a.pDest) : n ∈ (stepMarkets o l a).pDest := by
  induction l generalizing a with
  | nil => exact h
  | cons me rest ih => exact ih _ (stepMarket_pDest_mono o me a n h)

theorem stepMarkets_wDest_mono (o : LinkOracle) (l : List MarketEntry) (a : SyncAcc) (n : String)
    (h : n ∈ a.wDest) : n ∈ (stepMarkets o l a).wDest := by
  induction l generalizing a with
  | nil => exact h
  | cons me rest ih => exact ih _ (stepMarket_wDest_mono o me a n h)

theorem stepMarkets_pDest_incl (l : List MarketEntry) (a : SyncAcc) (n : String) :
    n ∈ (scanMarkets l).1 → n ∈ (stepMarkets perfectOps l a).pDest := by
  induction l generalizing a with
  | nil => intro h; cases h
  | cons me rest ih =>
    intro h
    rw [scanMarkets] at h
    rcases List.mem_append.mp h with h1 | h2
    · show n ∈ (stepMarkets perfectOps rest (stepMarket perfectOps me a)).pDest
      exact stepMarkets_pDest_mono _ _ _ _ (stepMarket_pDest_incl me a n h1)
    · exact ih _ h2

theorem stepMarkets_wDest_incl (l : List MarketEntry) (a : SyncAcc) (n : String) :
    n ∈ (scanMarkets l).2 → n ∈ (stepMarkets perfectOps l a).wDest := by
  induction l generalizing a with
  | nil => intro h; cases h
  | cons me rest ih =>
    intro h
    rw [scanMarkets] at h
    rcases List.mem_append.mp h with h1 | h2
    · show n ∈ (stepMarkets perfectOps rest (stepMarket perfectOps me a)).wDest
      exact stepMarkets_wDest_mono _ _ _ _ (stepMarket_wDest_incl me a n h1)
    · exact ih _ h2

theorem stepMarkets_noop (o : LinkOracle) (l : List MarketEntry) (a : SyncAcc)
    (hp : ∀ n ∈ (scanMarkets l).1, n ∈ a.pDest)
    (hw : ∀ n ∈ (scanMarkets l).2, n ∈ a.wDest) :
    stepMarkets o l a
      = { a with validP := a.validP ++ (scanMarkets l).1,
                 pSkipped := a.pSkipped + (scanMarkets l).1.length,
                 validW := a.validW ++ (scanMarkets l).2,
                 wSkipped := a.wSkipped + (scanMarkets l).2.length } := by
  induction l generalizing a with
  | nil => simp [stepMarkets, scanMarkets]
  | cons me rest ih =>
    rw [scanMarkets] at hp hw ⊢
    rw [stepMarkets, stepMarket_noop o me a
        (fun n hn => hp n (List.mem_append_left _ hn))
        (fun n hn => hw n (List.mem_append_left _ hn))]
    rw [ih]
    · simp [List.append_assoc]
      omega
    · intro n hn
      exact hp n (List.mem_append_right _ hn)
    · intro n hn
      exact hw n (List.mem_append_right _ hn)

theorem creationPass_validP (o : LinkOracle) (ms : List MarketEntry) (pD wD : List String) :
    (creationPass o ms pD wD).validP = (scanMarket ms).1 := by
  unfold creationPass scanMarket
  rw [stepMarkets_validP]
  rfl

theorem creationPass_validW (o : LinkOracle) (ms : List MarketEntry) (pD wD : List String) :
    (creationPass o ms pD wD).validW = (scanMarket ms).2 := by
  unfold creationPass scanMarket
  rw [stepMarkets_validW]
  rfl

theorem creationPass_pDest_mono (o : LinkOracle) (ms : List MarketEntry) (pD wD : List String)
    (n : String) (h : n ∈ pD) : n ∈ (creationPass o ms pD wD).pDest :=
  stepMarkets_pDest_mono o _ _ n h

theorem creationPass_wDest_mono (o : LinkOracle) (ms : List MarketEntry) (pD wD : List String)
    (n : String) (h : n ∈ wD) : n ∈ (creationPass o ms pD wD).wDest :=
  stepMarkets_wDest_mono o _ _ n h

theorem creationPass_pDest_incl (ms : List MarketEntry) (pD wD : List String) (n : String)
    (h : n ∈ (scanMarket ms).1) : n ∈ (creationPass perfectOps ms pD wD).pDest :=
  stepMarkets_pDest_incl _ _ n h

theorem creationPass_wDest_incl (ms : List MarketEntry) (pD wD : List String) (n : String)
    (h : n ∈ (scanMarket ms).2) : n ∈ (creationPass perfectOps ms pD wD).wDest :=
  stepMarkets_wDest_incl _ _ n h

theorem creationPass_noop (o : LinkOracle) (ms : List MarketEntry) (pD wD : List String)
    (hp : ∀ n ∈ (scanMarket ms).1, n ∈ pD)
    (hw : ∀ n ∈ (scanMarket ms).2, n ∈ wD) :
    creationPass o ms pD wD
      = { validP := (scanMarket ms).1, validW := (scanMarket ms).2,
          pLinked := 0, pSkipped := (scanMarket ms).1.length,
          wLinked := 0, wSkipped := (scanMarket ms).2.length,
          pDest := pD, wDest := wD } := by
  unfold creationPass
  unfold scanMarket at hp hw ⊢
  rw [stepMarkets_noop o (sortMarkets ms) (initAcc pD wD) hp hw]
  simp [initAcc]

theorem cleanupPlugins_len (o : LinkOracle) (valid l : List String) :
    (cleanupPlugins o valid l).1 + (cleanupPlugins o valid l).2.length = l.length := by
  induction l with
  | nil => rfl
  | cons n rest ih =>
    rw [cleanupPlugins]
    split_ifs <;> simp <;> omega

theorem cleanupWorkflows_len (o : LinkOracle) (valid l : List String) :
    (cleanupWorkflows o valid l).1 + (cleanupWorkflows o valid l).2.length = l.length := by
  induction l with
  | nil => rfl
  | cons n rest ih =>
    rw [cleanupWorkflows]
    split_ifs <;> simp <;> omega

theorem cleanupPlugins_perfect (valid l : List String) :
    cleanupPlugins perfectOps valid l
      = ((l.filter (fun n => !(valid.contains n))).length,
         l.filter (fun n => valid.contains n)) := by
  induction l with
  | nil => rfl
  | cons n rest ih =>
    rw [cleanupPlugins, ih]
    by_cases h : n ∈ valid
    · simp [List.filter_cons, h]
    · simp [List.filter_cons, h, perfectOps]

theorem cleanupWorkflows_perfect (valid l : List String) :
    cleanupWorkflows perfectOps valid l
      = ((l.filter (fun n => strStartsWith n "cb__" && !(valid.contains n))).length,
         l.filter (fun n => !(strStartsWith n "cb__" && !(valid.contains n)))) := by
  induction l with
  | nil => rfl
  | cons n rest ih =>
    rw [cleanupWorkflows, ih]
    by_cases hs : strStartsWith n "cb__" = true <;> by_cases hv : n ∈ valid <;>
      simp [List.filter_cons, hs, hv, perfectOps]

theorem cleanupPlugins_noop (o : LinkOracle) (valid l : List String)
    (h : ∀ n ∈ l, n ∈ valid) :
    cleanupPlugins o valid l = (0, l) := by
  induction l with
  | nil => rfl
  | cons n rest ih =>
    rw [cleanupPlugins, ih (fun x hx => h x (List.mem_cons_of_mem n hx))]
    rw [if_pos ((contains_iff _ _).mpr (h n (List.mem_cons_self n rest)))]

theorem cleanupWorkflows_noop (o : LinkOracle) (valid l : List String)
    (h : ∀ n ∈ l, strStartsWith n "cb__" = true → n ∈ valid) :
    cleanupWorkflows o valid l = (0, l) := by
  induction l with
  | nil => rfl
  | cons n rest ih =>
    rw [cleanupWorkflows, ih (fun x hx => h x (List.mem_cons_of_mem n hx))]
    have hcond : (strStartsWith n "cb__" && !(valid.contains n)) = false := by
      by_cases hs : strStartsWith n "cb__" = true
      · have hv : n ∈ valid := h n (List.mem_cons_self n rest) hs
        simp [hs, hv]
      · simp [hs]
    rw [hcond]
    simp

theorem sortStrings_mem (l : List String) (n : String) : n ∈ sortStrings l ↔ n ∈ l :=
  (List.perm_insertionSort _ l).mem_iff

theorem cleanupWorkflows_keep (o : LinkOracle) (valid l : List String) (n : String)
    (hmem : n ∈ l) (hs : strStartsWith n "cb__" = false) :
    n ∈ (cleanupWorkflows o valid l).2 := by
  induction l with
  | nil => cases hmem
  | cons m rest ih =>
    rw [cleanupWorkflows]
    rcases List.mem_cons.mp hmem with rfl | h2
    · rw [if_neg (by simp [hs])]
      exact List.mem_cons_self _ _
    · split_ifs with h h'
      · exact ih h2
      · exact List.mem_cons_of_mem _ (ih h2)
      · exact List.mem_cons_of_mem _ (ih h2)

theorem sync_perfect_pDest (ms : List MarketEntry) (fs : FS) (n : String) :
    n ∈ ((cmd_sync perfectOps (some ms) fs).2).plugDest.getD []
      ↔ n ∈ (scanMarket ms).1 := by
  simp only [cmd_sync]
  rw [cleanupPlugins_perfect]
  simp only [Option.getD_some]
  rw [List.mem_filter]
  constructor
  · rintro ⟨-, h2⟩
    rw [creationPass_validP] at h2
    exact (contains_iff _ _).mp h2
  · intro h
    refine ⟨?_, ?_⟩
    · rw [sortStrings_mem]
      exact creationPass_pDest_incl ms _ _ n h
    · rw [creationPass_validP]
      exact (contains_iff _ _).mpr h

theorem sync_perfect_wDest_incl (ms : List MarketEntry) (fs : FS) (n : String)
    (h : n ∈ (scanMarket ms).2) :
    n ∈ ((cmd_sync perfectOps (some ms) fs).2).wfDest.getD [] := by
  simp only [cmd_sync]
  rw [cleanupWorkflows_perfect]
  simp only [Option.getD_some]
  rw [List.mem_filter]
  refine ⟨?_, ?_⟩
  · rw [sortStrings_mem]
    exact creationPass_wDest_incl ms _ _ n h
  · rw [creationPass_validW]
    simp
    exact Or.inr h

theorem sync_perfect_wDest_cb (ms : List MarketEntry) (fs : FS) (n : String)
    (h : n ∈ ((cmd_sync perfectOps (some ms) fs).2).wfDest.getD [])
    (hs : strStartsWith n "cb__" = true) :
    n ∈ (scanMarket ms).2 := by
  simp only [cmd_sync] at h
  rw [cleanupWorkflows_perfect] at h
  simp only [Option.getD_some] at h
  rcases List.mem_filter.mp h with ⟨-, hkeep⟩
  rw [creationPass_validW] at hkeep
  simp [hs] at hkeep
  exact hkeep

theorem sync_wDest_foreign (o : LinkOracle) (ms : List MarketEntry) (fs : FS) (n : String)
    (hmem : n ∈ fs.wfDest.getD []) (hs : strStartsWith n "cb__" = false) :
    n ∈ ((cmd_sync o (some ms) fs).2).wfDest.getD [] := by
  simp only [cmd_sync, Option.getD_some]
  apply cleanupWorkflows_keep o _ _ n _ hs
  rw [sortStrings_mem]
  exact creationPass_wDest_mono o ms _ _ n hmem

theorem sync_noop_spec (o : LinkOracle) (ms : List MarketEntry) (P W : List String)
    (hp : ∀ n ∈ (scanMarket ms).1, n ∈ P)
    (hp' : ∀ n ∈ P, n ∈ (scanMarket ms).1)
    (hw : ∀ n ∈ (scanMarket ms).2, n ∈ W)
    (hw' : ∀ n ∈ W, strStartsWith n "cb__" = true → n ∈ (scanMarket ms).2) :
    cmd_sync o (some ms) ⟨some P, some W⟩
      = (some { pBridged := (scanMarket ms).1.length, pLinked := 0,
                pSkipped := (scanMarket ms).1.length, pRemoved := 0,
                wBridged := (scanMarket ms).2.length, wLinked := 0,
                wSkipped := (scanMarket ms).2.length, wRemoved := 0 },
         { plugDest := some (sortStrings P), wfDest := some (sortStrings W) }) := by
  simp only [cmd_sync, Option.getD_some]
  rw [creationPass_noop o ms P W hp hw]
  rw [cleanupPlugins_noop o _ _ (fun n hn => by
    have := hp' n ((sortStrings_mem P n).mp hn)
    exact this)]
  rw [cleanupWorkflows_noop o _ _ (fun n hn hs => by
    have := hw' n ((sortStrings_mem W n).mp hn) hs
    exact this)]

theorem scanPlugins_fst (mpName : String) (l : List PluginDir) :
    (scanPlugins mpName l).1
      = (l.filter (fun pd => pd.isDir && is_plugin_dir pd)).map
          (fun pd => bridgeNameOf mpName pd.name) := by
  induction l with
  | nil => rfl
  | cons pd rest ih =>
    rw [scanPlugins, List.filter_cons]
    by_cases h : (pd.isDir && is_plugin_dir pd) = true
    · simp only [h, if_pos, List.map_cons]
      rw [← ih]
      simp [scanPlugin1, h]
    · rw [if_neg h, ← ih]
      simp [scanPlugin1, h]

theorem scanPlugins_snd (mpName : String) (l : List PluginDir) :
    (scanPlugins mpName l).2
      = (l.filter (fun pd => pd.isDir && is_plugin_dir pd)).flatMap
          (fun pd => wfNamesOfPlugin mpName pd) := by
  induction l with
  | nil => rfl
  | cons pd rest ih =>
    rw [scanPlugins, List.filter_cons]
    by_cases h : (pd.isDir && is_plugin_dir pd) = true
    · simp only [h, if_pos, List.flatMap_cons]
      rw [← ih]
      simp [scanPlugin1, h]
    · rw [if_neg h, ← ih]
      simp [scanPlugin1, h]

/-- The canonical identifiers of the current plugin sources: for every
non-hidden marketplace directory (in sorted order) and every directory of
its plugin base (in sorted order) passing the classifier, the id
`marketplaceName__pluginName`. -/
def pluginSourceIds (ms : List MarketEntry) : List String :=
  ((sortMarkets ms).filter (fun me => me.isDir && !(strStartsWith me.name "."))).flatMap
    (fun me =>
      ((sortPlugins (pluginBaseListing me)).filter
          (fun pd => pd.isDir && is_plugin_dir pd)).map
        (fun pd => bridgeNameOf me.name pd.name))

/-- The canonical identifiers of the current workflow sources:
`cb__marketplaceName__pluginName__fileName` for every `*.md` file of a
qualifying plugin's `commands` directory. -/
def workflowSourceIds (ms : List MarketEntry) : List String :=
  ((sortMarkets ms).filter (fun me => me.isDir && !(strStartsWith me.name "."))).flatMap
    (fun me =>
      ((sortPlugins (pluginBaseListing me)).filter
          (fun pd => pd.isDir && is_plugin_dir pd)).flatMap
        (fun pd => wfNamesOfPlugin me.name pd))

theorem scanMarkets_fst (l : List MarketEntry) :
    (scanMarkets l).1
      = (l.filter (fun me => me.isDir && !(strStartsWith me.name "."))).flatMap
          (fun me =>
            ((sortPlugins (pluginBaseListing me)).filter
                (fun pd => pd.isDir && is_plugin_dir pd)).map
              (fun pd => bridgeNameOf me.name pd.name)) := by
  induction l with
  | nil => rfl
  | cons me rest ih =>
    rw [scanMarkets, List.filter_cons]
    by_cases h : (me.isDir && !(strStartsWith me.name ".")) = true
    · simp only [h, if_pos, List.flatMap_cons]
      rw [← ih]
      simp [scanMarket1, h, scanPlugins_fst]
    · rw [if_neg h, ← ih]
      simp [scanMarket1, h]

theorem scanMarkets_snd (l : List MarketEntry) :
    (scanMarkets l).2
      = (l.filter (fun me => me.isDir && !(strStartsWith me.name "."))).flatMap
          (fun me =>
            ((sortPlugins (pluginBaseListing me)).filter
                (fun pd => pd.isDir && is_plugin_dir pd)).flatMap
              (fun pd => wfNamesOfPlugin me.name pd)) := by
  induction l with
  | nil => rfl
  | cons me rest ih =>
    rw [scanMarkets, List.filter_cons]
    by_cases h : (me.isDir && !(strStartsWith me.name ".")) = true
    · simp only [h, if_pos, List.flatMap_cons]
      rw [← ih]
      simp [scanMarket1, h, scanPlugins_snd]
    · rw [if_neg h, ← ih]
      simp [scanMarket1, h]

theorem scanMarket_fst (ms : List MarketEntry) :
    (scanMarket ms).1 = pluginSourceIds ms :=
  scanMarkets_fst (sortMarkets ms)

theorem scanMarket_snd (ms : List MarketEntry) :
    (scanMarket ms).2 = workflowSourceIds ms :=
  scanMarkets_snd (sortMarkets ms)

theorem strContainsSub_self (s : String) : strContainsSub s s = true := by
  unfold strContainsSub
  cases h : s.toList with
  | nil => simp [charsContain]
  | cons c rest =>
    unfold charsContain
    simp [List.isPrefixOf_iff_prefix]

/-! ### Claims -/

/-- C4.  Classifier correctness: `is_plugin_dir` rejects every directory
whose base name starts with `.` or lies in the fixed exclusion set,
regardless of contents; otherwise it accepts iff at least one of the fixed
indicator entries exists directly inside the directory. -/
theorem classifier_correct (d : PluginDir) :
    ((strStartsWith d.name "." = true ∨ d.name ∈ EXCLUDE_NAMES) → is_plugin_dir d = false)
    ∧ (¬(strStartsWith d.name "." = true ∨ d.name ∈ EXCLUDE_NAMES) →
        (is_plugin_dir d = true ↔ ∃ i ∈ PLUGIN_INDICATORS, i ∈ d.entryNames)) := by
  constructor
  · intro h
    unfold is_plugin_dir
    rw [if_pos (show (strStartsWith d.name "." || EXCLUDE_NAMES.contains d.name) = true by
      rcases h with h | h
      · simp [h]
      · simp
        exact Or.inr h)]
  · intro h
    unfold is_plugin_dir
    rw [if_neg (by simpa using h)]
    rw [List.any_eq_true]
    constructor
    · rintro ⟨i, hi, hc⟩
      exact ⟨i, hi, (contains_iff _ _).mp hc⟩
    · rintro ⟨i, hi, hc⟩
      exact ⟨i, hi, (contains_iff _ _).mpr hc⟩

/-- Witness for C4: a directory named `tests` holding a `plugin.json` is
rejected; a directory `p` holding only a `plugin.json` qualifies. -/
theorem classifier_correct_witness :
    is_plugin_dir ⟨"tests", true, ["plugin.json"], none⟩ = false
    ∧ is_plugin_dir ⟨"p", true, ["plugin.json"], none⟩ = true :=
  ⟨(classifier_correct _).1 (Or.inr (by decide)),
   ((classifier_correct _).2 (by decide)).mpr ⟨"plugin.json", by decide, by decide⟩⟩

theorem resolve_exact_pos (entries : List DirEntry) (query : String)
    (h : ∃ e ∈ entries, e.name = query ∧ e.resolvedExists = true) :
    resolve_plugin entries query = .found query := by
  unfold resolve_plugin
  rw [if_pos]
  rw [List.any_eq_true]
  obtain ⟨e, he, h1, h2⟩ := h
  exact ⟨e, he, by simp [h1, h2]⟩

theorem resolve_exact_neg (entries : List DirEntry) (query : String)
    (h : ¬ ∃ e ∈ entries, e.name = query ∧ e.resolvedExists = true) :
    resolve_plugin entries query = substringResolve entries query := by
  unfold resolve_plugin
  rw [if_neg]
  rw [List.any_eq_true]
  rintro ⟨e, he, hb⟩
  rw [Bool.and_eq_true, beq_iff_eq] at hb
  exact h ⟨e, he, hb.1, hb.2⟩

theorem substringResolve_single (entries : List DirEntry) (query c : String)
    (h : matchNames entries query = [c]) :
    substringResolve entries query = .found c := by
  unfold substringResolve
  rw [h]

theorem substringResolve_empty (entries : List DirEntry) (query : String)
    (h : matchNames entries query = []) :
    substringResolve entries query = .notFound := by
  unfold substringResolve
  rw [h]

theorem substringResolve_many (entries : List DirEntry) (query : String)
    (h : 2 ≤ (matchNames entries query).length) :
    substringResolve entries query = .ambiguous (matchNames entries query) := by
  unfold substringResolve
  cases hm : matchNames entries query with
  | nil => rw [hm] at h; simp at h
  | cons a tail =>
    cases tail with
    | nil => rw [hm] at h; simp at h
    | cons b rest => rfl

/-- C6.  Resolver disambiguation: an entry at exactly
`destinationRoot/query` that resolves wins immediately; otherwise the
substring candidates decide — exactly one resolves to it, zero fails as
not-found, several fail as ambiguous carrying every candidate name. -/
theorem resolver_disambiguation (entries : List DirEntry) (query : String) :
    ((∃ e ∈ entries, e.name = query ∧ e.resolvedExists = true) →
        resolve_plugin entries query = .found query)
    ∧ (¬(∃ e ∈ entries, e.name = query ∧ e.resolvedExists = true) →
        ((∀ c, matchNames entries query = [c] → resolve_plugin entries query = .found c)
         ∧ (matchNames entries query = [] → resolve_plugin entries query = .notFound)
         ∧ (2 ≤ (matchNames entries query).length →
             resolve_plugin entries query = .ambiguous (matchNames entries query)))) := by
  refine ⟨resolve_exact_pos entries query, fun h => ⟨?_, ?_, ?_⟩⟩
  · intro c hc
    rw [resolve_exact_neg entries query h]
    exact substringResolve_single entries query c hc
  · intro hc
    rw [resolve_exact_neg entries query h]
    exact substringResolve_empty entries query hc
  · intro hc
    rw [resolve_exact_neg entries query h]
    exact substringResolve_many entries query hc

/-- Witness for C6: `alpha__x` resolves exactly; query `x` is ambiguous
between `alpha__x` and `beta__x`; query `zzz` is not found. -/
theorem resolver_disambiguation_witness :
    resolve_plugin [⟨"alpha__x", true⟩, ⟨"beta__x", true⟩] "alpha__x" = .found "alpha__x"
    ∧ resolve_plugin [⟨"alpha__x", true⟩, ⟨"beta__x", true⟩] "x"
        = .ambiguous ["alpha__x", "beta__x"]
    ∧ resolve_plugin [⟨"alpha__x", true⟩, ⟨"beta__x", true⟩] "zzz" = .notFound := by
  refine ⟨?_, ?_, ?_⟩
  · exact (resolver_disambiguation _ _).1 ⟨⟨"alpha__x", true⟩, by decide, by decide, by decide⟩
  · have h := ((resolver_disambiguation [⟨"alpha__x", true⟩, ⟨"beta__x", true⟩] "x").2
      (by decide)).2.2 (by decide)
    rw [h]
    decide
  · exact ((resolver_disambiguation [⟨"alpha__x", true⟩, ⟨"beta__x", true⟩] "zzz").2
      (by decide)).2.1 (by decide)

/-- C10.  The exact-match test of `resolve_plugin` uses resolved existence:
when every entry named exactly `query` is a dangling link, the resolver
falls through to the substring search; the dangling entry's name still
matches there, so the query can end ambiguous even though an exactly-named
entry is present. -/
theorem resolver_dangling_exact (entries : List DirEntry) (query : String)
    (hdangling : ∀ e ∈ entries, e.name = query → e.resolvedExists = false) :
    (resolve_plugin entries query = substringResolve entries query)
    ∧ ((⟨query, false⟩ : DirEntry) ∈ entries → query ∈ matchNames entries query)
    ∧ ((⟨query, false⟩ : DirEntry) ∈ entries → 2 ≤ (matchNames entries query).length →
        resolve_plugin entries query = .ambiguous (matchNames entries query)) := by
  have hneg : ¬ ∃ e ∈ entries, e.name = query ∧ e.resolvedExists = true := by
    rintro ⟨e, he, h1, h2⟩
    rw [hdangling e he h1] at h2
    cases h2
  refine ⟨resolve_exact_neg entries query hneg, fun hmem => ?_, fun hmem h2 => ?_⟩
  · unfold matchNames
    refine List.mem_map.mpr ⟨⟨query, false⟩, ?_, rfl⟩
    refine List.mem_filter.mpr ⟨hmem, ?_⟩
    exact strContainsSub_self query
  · rw [resolve_exact_neg entries query hneg]
    exact substringResolve_many entries query h2

/-- Witness for C10: a dangling link named `ab` plus an entry `abc` make
query `ab` ambiguous even though an entry named exactly `ab` exists. -/
theorem resolver_dangling_exact_witness :
    resolve_plugin [⟨"ab", false⟩, ⟨"abc", true⟩] "ab" = .ambiguous ["ab", "abc"] := by
  have h := (resolver_dangling_exact [⟨"ab", false⟩, ⟨"abc", true⟩] "ab"
      (by decide)).2.2 (by decide) (by decide)
  rw [h]
  decide

/-- C8.  Removal safety: `remove_link` removes a symbolic link (to a
directory, to a file, or dangling), a Windows junction, a plain file, and
an empty real directory — and on a non-empty real directory that is not a
link it fails, returns `False`, and leaves the directory and its contents
untouched (no recursive deletion). -/
theorem remove_link_safety (w : Bool) (contents : List String) :
    remove_link .symlinkToDir w = (true, none)
    ∧ remove_link .symlinkToFile w = (true, none)
    ∧ remove_link .symlinkDangling w = (true, none)
    ∧ remove_link .junction true = (true, none)
    ∧ remove_link .file w = (true, none)
    ∧ remove_link (.realDir []) w = (true, none)
    ∧ (contents ≠ [] → remove_link (.realDir contents) w = (false, some (.realDir contents))) := by
  cases w <;>
    refine ⟨rfl, rfl, rfl, rfl, rfl, rfl, fun h => ?_⟩ <;>
    · cases contents with
      | nil => exact absurd rfl h
      | cons c rest => rfl

/-- Witness for C8: removing a non-empty real directory fails and leaves
it intact, on both platforms. -/
theorem remove_link_safety_witness :
    remove_link (.realDir ["f"]) false = (false, some (.realDir ["f"]))
    ∧ remove_link (.realDir ["f"]) true = (false, some (.realDir ["f"]))
    ∧ remove_link .symlinkToDir false = (true, none) :=
  ⟨(remove_link_safety false ["f"]).2.2.2.2.2.2 (by decide),
   (remove_link_safety true ["f"]).2.2.2.2.2.2 (by decide),
   (remove_link_safety false ["f"]).1⟩

/-- C9.  When the marketplace root does not exist, `cmd_sync` returns
immediately after the notice: no destination directory is created, no link
is created, no cleanup removal happens — the filesystem state is returned
unchanged, stale bridged links included. -/
theorem sync_missing_marketplace (o : LinkOracle) (fs : FS) :
    cmd_sync o none fs = (none, fs) := rfl

theorem cmd_sync_shape (o : LinkOracle) (ms : List MarketEntry) (fs : FS) :
    (cmd_sync o (some ms) fs).2
      = ⟨some ((cmd_sync o (some ms) fs).2).plugNames,
         some ((cmd_sync o (some ms) fs).2).wfNames⟩ := by
  simp [cmd_sync, FS.plugNames, FS.wfNames]

/-- C7.  Link-primitive totality: `create_link` and `create_file_link`
catch every underlying failure and return a boolean (true exactly on
success); `remove_link` reports a caught removal failure as `False` with
the entry intact; and the sync loops continue past per-link failures — for
every failure oracle the candidate sequences are scanned in full and every
destination entry is accounted for during cleanup. -/
theorem link_primitives_total :
    (∀ attempt : Except String Unit,
        (create_link attempt = true ↔ attempt = .ok ())
        ∧ (create_link attempt = false ↔ ∃ msg, attempt = .error msg))
    ∧ (∀ attempt : Except String Unit,
        (create_file_link attempt = true ↔ attempt = .ok ())
        ∧ (create_file_link attempt = false ↔ ∃ msg, attempt = .error msg))
    ∧ (∀ (contents : List String) (w : Bool),
        remove_link (.realDir contents) w
          = if contents.isEmpty then (true, none) else (false, some (.realDir contents)))
    ∧ (∀ (o : LinkOracle) (ms : List MarketEntry) (fs : FS),
        ∃ c : SyncCounts, (cmd_sync o (some ms) fs).1 = some c
          ∧ c.pBridged = (scanMarket ms).1.length
          ∧ c.wBridged = (scanMarket ms).2.length)
    ∧ (∀ (o : LinkOracle) (valid l : List String),
        (cleanupPlugins o valid l).1 + (cleanupPlugins o valid l).2.length = l.length
        ∧ (cleanupWorkflows o valid l).1 + (cleanupWorkflows o valid l).2.length = l.length) := by
  refine ⟨?_, ?_, ?_, ?_, ?_⟩
  · intro attempt
    cases attempt with
    | ok u => cases u; simp [create_link]
    | error m => simp [create_link]
  · intro attempt
    cases attempt with
    | ok u => cases u; simp [create_file_link]
    | error m => simp [create_file_link]
  · intro contents w
    cases w <;> cases contents <;> rfl
  · intro o ms fs
    refine ⟨_, rfl, ?_, ?_⟩
    · show (creationPass o ms (fs.plugDest.getD []) (fs.wfDest.getD [])).validP.length
        = (scanMarket ms).1.length
      rw [creationPass_validP]
    · show (creationPass o ms (fs.plugDest.getD []) (fs.wfDest.getD [])).validW.length
        = (scanMarket ms).2.length
      rw [creationPass_validW]
  · intro o valid l
    exact ⟨cleanupPlugins_len o valid l, cleanupWorkflows_len o valid l⟩

/-- C2.  Convergence: after one sync in which no individual link operation
fails, the name set of the bridge-plugins destination is exactly the set of
canonical identifiers `marketplaceName__pluginName` of the current plugin
sources — no extra entries and no missing entries. -/
theorem sync_convergence (ms : List MarketEntry) (fs : FS) (n : String) :
    n ∈ ((cmd_sync perfectOps (some ms) fs).2).plugNames ↔ n ∈ pluginSourceIds ms := by
  rw [← scanMarket_fst]
  exact sync_perfect_pDest ms fs n

/-- C1.  Idempotence: a second run of `cmd_sync` with unchanged sources
creates no link and removes no entry, counts every candidate as already
present, and leaves the name set of both destination directories
unchanged — an existing destination entry with a matching canonical name is
never recreated. -/
theorem sync_idempotent (ms : List MarketEntry) (fs : FS) :
    ∃ c2 : SyncCounts,
      (cmd_sync perfectOps (some ms) (cmd_sync perfectOps (some ms) fs).2).1 = some c2
      ∧ c2.pLinked = 0 ∧ c2.wLinked = 0 ∧ c2.pRemoved = 0 ∧ c2.wRemoved = 0
      ∧ c2.pSkipped = c2.pBridged ∧ c2.wSkipped = c2.wBridged
      ∧ (∀ n, n ∈ ((cmd_sync perfectOps (some ms)
                      (cmd_sync perfectOps (some ms) fs).2).2).plugNames
            ↔ n ∈ ((cmd_sync perfectOps (some ms) fs).2).plugNames)
      ∧ (∀ n, n ∈ ((cmd_sync perfectOps (some ms)
                      (cmd_sync perfectOps (some ms) fs).2).2).wfNames
            ↔ n ∈ ((cmd_sync perfectOps (some ms) fs).2).wfNames) := by
  have hp : ∀ n ∈ (scanMarket ms).1,
      n ∈ ((cmd_sync perfectOps (some ms) fs).2).plugNames :=
    fun n hn => (sync_perfect_pDest ms fs n).mpr hn
  have hp' : ∀ n ∈ ((cmd_sync perfectOps (some ms) fs).2).plugNames,
      n ∈ (scanMarket ms).1 :=
    fun n hn => (sync_perfect_pDest ms fs n).mp hn
  have hw : ∀ n ∈ (scanMarket ms).2,
      n ∈ ((cmd_sync perfectOps (some ms) fs).2).wfNames :=
    fun n hn => sync_perfect_wDest_incl ms fs n hn
  have hw' : ∀ n ∈ ((cmd_sync perfectOps (some ms) fs).2).wfNames,
      strStartsWith n "cb__" = true → n ∈ (scanMarket ms).2 :=
    fun n hn hs => sync_perfect_wDest_cb ms fs n hn hs
  have hrun2 : cmd_sync perfectOps (some ms) (cmd_sync perfectOps (some ms) fs).2
      = (some { pBridged := (scanMarket ms).1.length, pLinked := 0,
                pSkipped := (scanMarket ms).1.length, pRemoved := 0,
                wBridged := (scanMarket ms).2.length, wLinked := 0,
                wSkipped := (scanMarket ms).2.length, wRemoved := 0 },
         { plugDest := some (sortStrings ((cmd_sync perfectOps (some ms) fs).2).plugNames),
           wfDest := some (sortStrings ((cmd_sync perfectOps (some ms) fs).2).wfNames) }) := by
    conv_lhs => rw [cmd_sync_shape perfectOps ms fs]
    exact sync_noop_spec perfectOps ms _ _ hp hp' hw hw'
  refine ⟨_, by rw [hrun2], rfl, rfl, rfl, rfl, rfl, rfl, ?_, ?_⟩
  · intro n
    rw [hrun2]
    exact sortStrings_mem _ n
  · intro n
    rw [hrun2]
    exact sortStrings_mem _ n

/-- C3.  Cleanup scoping: a workflow-destination entry whose name does not
start with `cb__` is never removed — it survives any number of sync runs,
under any failure oracle; and with no removal failures, every entry whose
name starts with `cb__` and is not a current workflow id is gone after the
run. -/
theorem workflow_cleanup_scoping (o : LinkOracle) (ms : List MarketEntry) (fs : FS)
    (n : String) (k : Nat) :
    (n ∈ fs.wfNames → strStartsWith n "cb__" = false →
        n ∈ (syncIter o ms k fs).wfNames)
    ∧ (strStartsWith n "cb__" = true → n ∉ workflowSourceIds ms →
        n ∉ ((cmd_sync perfectOps (some ms) fs).2).wfNames) := by
  constructor
  · intro hmem hs
    induction k generalizing fs with
    | zero => exact hmem
    | succ m ih =>
      show n ∈ (syncIter o ms m (cmd_sync o (some ms) fs).2).wfNames
      exact ih _ (sync_wDest_foreign o ms fs n hmem hs)
  · intro hs hvalid hmem
    rw [← scanMarket_snd] at hvalid
    exact hvalid (sync_perfect_wDest_cb ms fs n hmem hs)

/-- A marketplace layout used by concrete check runs below: one marketplace
`m` holding one plugin `p` with a `plugin.json` marker and two command
files listed as `b.md` then `a.md`. -/
def demoPlugin : PluginDir := ⟨"p", true, ["plugin.json"], some ["b.md", "a.md"]⟩

/-- The marketplace entry wrapping `demoPlugin` (no `plugins` subdirectory,
so the entry itself is the plugin base). -/
def demoEntry : MarketEntry := ⟨"m", true, none, [demoPlugin]⟩

/-- Witness for C3: a foreign `keepme` file survives two sync runs, and a
stale `cb__stale` entry is removed by one run. -/
theorem workflow_cleanup_scoping_witness :
    "keepme" ∈ (syncIter perfectOps [demoEntry] 2 ⟨none, some ["keepme", "cb__stale"]⟩).wfNames
    ∧ "cb__stale" ∉ ((cmd_sync perfectOps (some [demoEntry])
        ⟨none, some ["keepme", "cb__stale"]⟩).2).wfNames :=
  ⟨(workflow_cleanup_scoping perfectOps [demoEntry] ⟨none, some ["keepme", "cb__stale"]⟩
      "keepme" 2).1 (by decide) (by decide),
   (workflow_cleanup_scoping perfectOps [demoEntry] ⟨none, some ["keepme", "cb__stale"]⟩
      "cb__stale" 0).2 (by decide) (by decide)⟩

theorem charLe_total (a b : List Char) : charLe a b = true ∨ charLe b a = true := by
  induction a generalizing b with
  | nil => exact Or.inl rfl
  | cons x xs ih =>
    cases b with
    | nil => exact Or.inr rfl
    | cons y ys =>
      by_cases hxy : x = y
      · subst hxy
        rcases ih ys with h | h
        · exact Or.inl (by simp [charLe, h])
        · exact Or.inr (by simp [charLe, h])
      · rcases lt_or_gt_of_ne hxy with h | h
        · exact Or.inl (by simp [charLe, hxy, h])
        · refine Or.inr (by simp [charLe, Ne.symm hxy, h])

theorem charLe_trans (a b c : List Char) (hab : charLe a b = true) (hbc : charLe b c = true) :
    charLe a c = true := by
  induction a generalizing b c with
  | nil => rfl
  | cons x xs ih =>
    cases b with
    | nil => simp [charLe] at hab
    | cons y ys =>
      cases c with
      | nil => simp [charLe] at hbc
      | cons z zs =>
        by_cases hxy : x = y <;> by_cases hyz : y = z
        · subst hxy; subst hyz
          simp [charLe] at hab hbc ⊢
          exact ih ys zs hab hbc
        · subst hxy
          simp [charLe, hyz] at hbc
          simp [charLe, hyz, hbc]
        · subst hyz
          simp [charLe, hxy] at hab
          simp [charLe, hxy, hab]
        · simp [charLe, hxy] at hab
          simp [charLe, hyz] at hbc
          have hxz : x < z := lt_trans hab hbc
          simp [charLe, ne_of_lt hxz, hxz]

instance : IsTotal String (fun a b => strLe a b = true) :=
  ⟨fun a b => charLe_total a.toList b.toList⟩

instance : IsTrans String (fun a b => strLe a b = true) :=
  ⟨fun a b c => charLe_trans a.toList b.toList c.toList⟩

instance : IsTotal MarketEntry (fun a b => strLe a.name b.name = true) :=
  ⟨fun a b => charLe_total a.name.toList b.name.toList⟩

instance : IsTrans MarketEntry (fun a b => strLe a.name b.name = true) :=
  ⟨fun a b c => charLe_trans a.name.toList b.name.toList c.name.toList⟩

instance : IsTotal PluginDir (fun a b => strLe a.name b.name = true) :=
  ⟨fun a b => charLe_total a.name.toList b.name.toList⟩

instance : IsTrans PluginDir (fun a b => strLe a.name b.name = true) :=
  ⟨fun a b c => charLe_trans a.name.toList b.name.toList c.name.toList⟩

/-- The marketplace names `cmd_sync` visits, in visit order. -/
def visitedMarketNames (ms : List MarketEntry) : List String :=
  ((sortMarkets ms).filter (fun me => me.isDir && !(strStartsWith me.name "."))).map
    (fun me => me.name)

/-- The plugin directory names visited within one marketplace entry, in
visit order. -/
def visitedPluginNames (me : MarketEntry) : List String :=
  ((sortPlugins (pluginBaseListing me)).filter
      (fun pd => pd.isDir && is_plugin_dir pd)).map
    (fun pd => pd.name)

/-- C5 counterexample: with one marketplace `m` and one plugin `p` whose
commands directory lists `b.md` before `a.md`, the scan emits the workflow
candidates in that unsorted listing order — the command-file level is not
sorted, refuting the claim that the scan sorts at every level. -/
theorem scan_ordering_cex :
    (scanMarket [demoEntry]).2 = ["cb__m__p__b.md", "cb__m__p__a.md"]
    ∧ strLe "cb__m__p__b.md" "cb__m__p__a.md" = false
    ∧ ¬ List.Sorted (fun a b => strLe a b = true) (scanMarket [demoEntry]).2 := by
  refine ⟨by decide, by decide, ?_⟩
  intro h
  have := List.rel_of_sorted_cons (by rw [(by decide : (scanMarket [demoEntry]).2
    = ["cb__m__p__b.md", "cb__m__p__a.md"])] at h; exact h) "cb__m__p__a.md" (by decide)
  simp at this
  exact absurd this (by decide)

/-- C5 amended.  The scan visits marketplace entries in sorted order and
plugin entries within each marketplace in sorted order (lexicographic by
name), and its plugin candidates arise from those sorted visits; each
plugin's command files, however, are emitted in raw listing (glob) order,
unsorted. -/
theorem scan_ordering_amended (ms : List MarketEntry) :
    List.Sorted (fun a b => strLe a b = true) (visitedMarketNames ms)
    ∧ (∀ me : MarketEntry,
        List.Sorted (fun a b => strLe a b = true) (visitedPluginNames me))
    ∧ (∀ me : MarketEntry, (me.isDir && !(strStartsWith me.name ".")) = true →
        (scanMarket1 me).1
          = (visitedPluginNames me).map (fun p => bridgeNameOf me.name p))
    ∧ (∀ (mpName : String) (pd : PluginDir),
        wfNamesOfPlugin mpName pd
          = (globMd (pd.cmdListing.getD [])).map (fun f => wfNameOf mpName pd.name f)) := by
  refine ⟨?_, ?_, ?_, ?_⟩
  · unfold visitedMarketNames
    rw [List.Sorted, List.pairwise_map]
    exact ((List.sorted_insertionSort _ ms).filter _)
  · intro me
    unfold visitedPluginNames
    rw [List.Sorted, List.pairwise_map]
    exact ((List.sorted_insertionSort _ (pluginBaseListing me)).filter _)
  · intro me hme
    unfold scanMarket1 visitedPluginNames
    rw [if_pos hme, scanPlugins_fst, List.map_map]
    rfl
  · intro mpName pd
    unfold wfNamesOfPlugin
    cases pd.cmdListing <;> rfl

/-- Witness for C5's amended statement, at the demo marketplace: the
visited market names are sorted, and the plugin candidates of the demo
entry arise from the sorted plugin visit. -/
theorem scan_ordering_amended_witness :
    List.Sorted (fun a b => strLe a b = true) (visitedMarketNames [demoEntry])
    ∧ (scanMarket1 demoEntry).1
        = (visitedPluginNames demoEntry).map (fun p => bridgeNameOf demoEntry.name p) :=
  ⟨(scan_ordering_amended [demoEntry]).1,
   (scan_ordering_amended [demoEntry]).2.2.1 demoEntry (by decide)⟩

theorem demo_second_sync_noop :
    cmd_sync perfectOps (some [demoEntry])
        (cmd_sync perfectOps (some [demoEntry]) ⟨none, some ["keepme", "cb__stale"]⟩).2
      = (some ⟨1, 0, 1, 0, 2, 0, 2, 0⟩,
         (cmd_sync perfectOps (some [demoEntry]) ⟨none, some ["keepme", "cb__stale"]⟩).2) := by
  decide

theorem demo_first_sync :
    cmd_sync perfectOps (some [demoEntry]) ⟨none, some ["keepme", "cb__stale"]⟩
      = (some ⟨1, 1, 0, 0, 2, 2, 0, 1⟩,
         ⟨some ["m__p"], some ["cb__m__p__a.md", "cb__m__p__b.md", "keepme"]⟩) := by
  decide
end ClaudeBridge
